import Mathlib

/-!
Shallow embedding of the `scan-npm-vulnerable-actions` tool (`main.go`).

The program scans the repositories of a GitHub organization for workflow
files, collects every `uses:` action reference into a usage map, analyzes
each referenced action's own repository for npm dependencies, and flags
dependencies matching a registry of infected `name@version` strings.

Modelling conventions:
- Go strings are modelled as `List Char` (`GoStr`); the functions from Go's
  `strings` package that `main.go` uses (`Split`, `Contains`, `HasPrefix`,
  `TrimPrefix`, `HasSuffix`) are re-implemented with Go's semantics as
  structurally recursive functions, so that everything reduces in the kernel.
- The generic value trees produced by `yaml.Unmarshal` / `json.Unmarshal`
  into `map[string]interface{}` are modelled by `GVal`; Go map iteration is
  modelled by iteration over the association list in the order given by the
  environment (Go map order is unspecified).
- The GitHub API is an external collaborator: its possible outcomes
  (fetch errors, decode errors, parse errors, parsed content) are supplied
  as explicit environment values, one constructor per distinct code path
  in `main.go`.
- The usage map `map[string]*ActionInfo` is modelled as a function
  `GoStr → Option ActionInfo`; the in-place mutations of `main.go` become
  pointwise updates.
- The global `infectedPackages` registry list lives in a source file of the
  repository that only declares data; it is passed as an explicit
  `registry : List GoStr` parameter.
-/

abbrev GoStr := List Char

/-- Go `strings.Split` (for a non-empty separator), auxiliary loop.
The `Nat` argument counts separator characters that remain to be skipped
after a match, which keeps the recursion structural on the string. -/
def goSplitAux (sep : GoStr) : GoStr → Nat → List GoStr
  | [], _ => [[]]
  | _ :: rest, k+1 => goSplitAux sep rest k
  | c :: rest, 0 =>
    if sep.isPrefixOf (c :: rest) then
      [] :: goSplitAux sep rest (sep.length - 1)
    else match goSplitAux sep rest 0 with
      | [] => [[c]]
      | p :: ps => (c :: p) :: ps

/-- Go `strings.Split s sep` for non-empty `sep`: greedy leftmost
non-overlapping splitting; `Split "" sep = [""]`. -/
def goSplit (s sep : GoStr) : List GoStr := goSplitAux sep s 0

/-- Go `strings.Contains s sub`: `sub` occurs as a contiguous substring. -/
def goContains : GoStr → GoStr → Bool
  | [], sub => sub.isPrefixOf ([] : GoStr)
  | c :: rest, sub => sub.isPrefixOf (c :: rest) || goContains rest sub

/-- Go `strings.TrimPrefix s pre`. -/
def goTrimPfx (s pre : GoStr) : GoStr :=
  if pre.isPrefixOf s then s.drop pre.length else s

/-- Generic parsed YAML/JSON value (`interface{}` after unmarshalling):
strings, string-keyed mappings, sequences; every other shape (numbers,
booleans, null) is collapsed to `other` since `main.go` only ever type-asserts
the first three. -/
inductive GVal where
  | str : GoStr → GVal
  | map : List (GoStr × GVal) → GVal
  | seq : List GVal → GVal
  | other : GVal

instance : Inhabited GVal := ⟨GVal.other⟩

/-- Go map indexing `m[k]` on the association-list model of a
`map[string]interface{}` (first binding wins; Go maps have unique keys). -/
def lookupKey {α : Type} : List (GoStr × α) → GoStr → Option α
  | [], _ => none
  | (k', v) :: rest, k => if k = k' then some v else lookupKey rest k

/-- `ActionInfo` from `main.go`: per-action-reference record.
`repos` models the `map[string]struct{}` set of using repositories as a
duplicate-free insertion list. -/
structure ActionInfo where
  repos : List GoStr
  usesNpm : Bool
  isInfected : Bool
  infectedPackages : List GoStr
  analyzed : Bool
deriving DecidableEq

/-- The aggregate `usesRepos map[string]*ActionInfo`. -/
abbrev UsageMap := GoStr → Option ActionInfo

def emptyUsage : UsageMap := fun _ => none

/-- The zero-valued `ActionInfo{Repos: make(...), Analyzed: false}` created on
first sighting. -/
def newActionInfo : ActionInfo :=
  { repos := [], usesNpm := false, isInfected := false
    infectedPackages := [], analyzed := false }

/-- Insertion into the `Repos` set (`info.Repos[repoName] = struct{}{}`). -/
def insertRepo (repoName : GoStr) (repos : List GoStr) : List GoStr :=
  if repoName ∈ repos then repos else repos ++ [repoName]

/-- `addActionUsage` from `main.go`: create the entry if absent, then add the
repository name to its set. -/
def addActionUsage (actionUse repoName : GoStr) (usesRepos : UsageMap) : UsageMap :=
  fun k =>
    if k = actionUse then
      match usesRepos actionUse with
      | none => some { newActionInfo with repos := insertRepo repoName [] }
      | some info => some { info with repos := insertRepo repoName info.repos }
    else usesRepos k

/-- The body of the `for _, step := range steps` loop in `processJobSteps`:
a step that is a mapping with a string `uses` field records a usage. -/
def processStep (repoName : GoStr) (usesRepos : UsageMap) (step : GVal) : UsageMap :=
  match step with
  | GVal.map stepMap =>
    match lookupKey stepMap ("uses".toList) with
    | some (GVal.str uses) => addActionUsage uses repoName usesRepos
    | _ => usesRepos
  | _ => usesRepos

/-- `processJobSteps` from `main.go`: a job that is a mapping with a `steps`
sequence contributes each of its steps. -/
def processJobSteps (job : GVal) (repoName : GoStr) (usesRepos : UsageMap) : UsageMap :=
  match job with
  | GVal.map jobMap =>
    match lookupKey jobMap ("steps".toList) with
    | some (GVal.seq steps) => steps.foldl (processStep repoName) usesRepos
    | _ => usesRepos
  | _ => usesRepos

/-- `extractActionsFromWorkflow` from `main.go`, on the already-unmarshalled
document (`yaml.Unmarshal` is the external YAML library; a document that fails
to unmarshal never reaches this point, see `FileOutcome.yamlErr`): if the
document has a `jobs` mapping, iterate every job. -/
def extractActionsFromWorkflow (workflow : List (GoStr × GVal)) (repoName : GoStr)
    (usesRepos : UsageMap) : UsageMap :=
  match lookupKey workflow ("jobs".toList) with
  | some (GVal.map jobs) =>
    jobs.foldl (fun m kv => processJobSteps kv.2 repoName m) usesRepos
  | _ => usesRepos

example :
    extractActionsFromWorkflow
      [("jobs".toList, GVal.map
        [("build".toList, GVal.map
          [("steps".toList, GVal.seq
            [GVal.map [("uses".toList, GVal.str "actor/action@v1".toList)]])])])]
      "repo1".toList emptyUsage "actor/action@v1".toList
    = some { newActionInfo with repos := ["repo1".toList] } := by decide

/-- `parseActionReference` from `main.go`:
`strings.Split(strings.Split(actionUse, "@")[0], "/")`, demanding at least
two components. -/
def parseActionReference (actionUse : GoStr) : GoStr × GoStr :=
  let parts := goSplit ((goSplit actionUse ("@".toList)).headD []) ("/".toList)
  if parts.length < 2 then ([], [])
  else (parts.headD [], parts.getD 1 [])

/-- `extractPackageName` from `main.go`: strip a leading `node_modules/`,
keep scoped names (`@scope/pkg`) verbatim, otherwise take the part after the
last `/node_modules/` separator. -/
def extractPackageName (pkgPath : GoStr) : GoStr :=
  let pkgName := goTrimPfx pkgPath ("node_modules/".toList)
  if ("@".toList).isPrefixOf pkgName && goContains pkgName ("/".toList)
      && !goContains pkgName ("/node_modules/".toList) then
    pkgName
  else
    let parts := goSplit pkgName ("/node_modules/".toList)
    if parts.length > 1 then parts.getLastD pkgName else pkgName

/-- `isInfectedPackage` from `main.go`: linear scan of the registry for an
exact string match. The registry (global `infectedPackages`) is a parameter. -/
def isInfectedPackage (registry : List GoStr) (fullPkg : GoStr) : Bool :=
  match registry with
  | [] => false
  | infectedPkg :: rest =>
    if fullPkg = infectedPkg then true else isInfectedPackage rest fullPkg

/-- The body of the `for pkgPath, pkgInfo := range packages` loop of
`checkPackagesForInfection`: skip the root path, entries that are not
mappings, and entries without a string `version`; otherwise append the
`name@version` string when it is in the registry. -/
def checkPackageEntry (registry : List GoStr) (foundInfected : List GoStr)
    (pkg : GoStr × GVal) : List GoStr :=
  if pkg.1 = [] then foundInfected
  else
    match pkg.2 with
    | GVal.map pkgData =>
      match lookupKey pkgData ("version".toList) with
      | some (GVal.str version) =>
        let fullPkg := extractPackageName pkg.1 ++ ("@".toList) ++ version
        if isInfectedPackage registry fullPkg then foundInfected ++ [fullPkg]
        else foundInfected
      | _ => foundInfected
    | _ => foundInfected

/-- `checkPackagesForInfection` from `main.go`: walk the top-level `packages`
mapping of the parsed lock file; if any infected packages were accumulated,
set `isInfected` and `infectedPackages` (otherwise leave both untouched). -/
def checkPackagesForInfection (registry : List GoStr)
    (lockJSON : List (GoStr × GVal)) (info : ActionInfo) : ActionInfo :=
  match lookupKey lockJSON ("packages".toList) with
  | some (GVal.map packages) =>
    let foundInfected := packages.foldl (checkPackageEntry registry) []
    if foundInfected.length > 0 then
      { info with isInfected := true, infectedPackages := foundInfected }
    else info
  | _ => info

/-- Outcome of the `package-lock.json` part of the analysis, one constructor
per distinct code path of `analyzePackageLockFile`: the `GetContents` call
fails; the fetched content fails to decode (`GetContent` error); the decoded
content fails `json.Unmarshal`; or unmarshalling yields a document. -/
inductive LockFetch where
  | fetchErr : LockFetch
  | contentErr : LockFetch
  | parseErr : LockFetch
  | parsed : List (GoStr × GVal) → LockFetch

/-- External-world outcomes for analyzing one action repository: what the
`package-lock.json` fetch yields, and whether `package.json` exists (i.e.
whether its `GetContents` call succeeds). -/
structure DepEnv where
  lockFetch : LockFetch
  packageJsonExists : Bool

/-- `analyzePackageLockFile` from `main.go`. Returns the updated info and the
Go function's boolean: `false` only when the lock-file fetch itself failed,
`true` on every other path (content error, parse error, parsed). -/
def analyzePackageLockFile (registry : List GoStr) (lf : LockFetch)
    (info : ActionInfo) : ActionInfo × Bool :=
  match lf with
  | LockFetch.fetchErr => (info, false)
  | LockFetch.contentErr => ({ info with usesNpm := true }, true)
  | LockFetch.parseErr => ({ info with usesNpm := true }, true)
  | LockFetch.parsed lockJSON =>
    (checkPackagesForInfection registry lockJSON { info with usesNpm := true }, true)

/-- `analyzePackageJsonFile` from `main.go`: mere existence check, sets
`usesNpm` when `package.json` is present. -/
def analyzePackageJsonFile (packageJsonExists : Bool) (info : ActionInfo) : ActionInfo :=
  if packageJsonExists then { info with usesNpm := true } else info

/-- `analyzeActionDependencies` from `main.go`: try the lock file first; only
when that returns `false` (fetch failure) fall back to `package.json`. -/
def analyzeActionDependencies (registry : List GoStr) (env : DepEnv)
    (info : ActionInfo) : ActionInfo :=
  let r := analyzePackageLockFile registry env.lockFetch info
  if r.2 then r.1 else analyzePackageJsonFile env.packageJsonExists r.1

/-- The body of the `for actionUse, info := range usesRepos` loop of
`analyzeActions`: skip already-analyzed entries; skip (without marking)
entries whose reference does not parse into owner and repo; otherwise analyze
and mark `analyzed`. The environment `env owner repo` supplies the fetch
outcomes for that action repository. -/
def analyzeEntry (registry : List GoStr) (env : GoStr → GoStr → DepEnv)
    (actionUse : GoStr) (info : ActionInfo) : ActionInfo :=
  if info.analyzed then info
  else
    let ownerRepo := parseActionReference actionUse
    if ownerRepo.1 = [] || ownerRepo.2 = [] then info
    else
      { analyzeActionDependencies registry (env ownerRepo.1 ownerRepo.2) info with
        analyzed := true }

/-- `analyzeActions` from `main.go`: the loop touches each entry exactly once
and only through its own pointer, so it is the pointwise `analyzeEntry`. -/
def analyzeActions (registry : List GoStr) (env : GoStr → GoStr → DepEnv)
    (usesRepos : UsageMap) : UsageMap :=
  fun k => (usesRepos k).map (analyzeEntry registry env k)

/-- Outcome of `processWorkflowFile`'s external calls for one workflow file,
one constructor per code path: the file-content `GetContents` call fails; the
`GetContent` decode fails; `yaml.Unmarshal` fails; or unmarshalling yields a
document. The first three are logged by `main.go`. -/
inductive FileOutcome where
  | fetchErr : FileOutcome
  | decodeErr : FileOutcome
  | yamlErr : FileOutcome
  | yamlDoc : List (GoStr × GVal) → FileOutcome

/-- A directory entry of `.github/workflows` together with the outcome of
fetching it: its `Name`, its `Type` (`"file"`, `"dir"`, ...), and what
processing its content yields. -/
structure WfFile where
  name : GoStr
  ftype : GoStr
  outcome : FileOutcome

/-- `isWorkflowFile` from `main.go`: a `file` entry whose name ends in
`.yml` or `.yaml`. -/
def isWorkflowFile (f : WfFile) : Bool :=
  f.ftype = ("file".toList)
    && ((".yml".toList).isSuffixOf f.name || (".yaml".toList).isSuffixOf f.name)

/-- `processWorkflowFile` from `main.go`: fetch/decode/parse failures are
logged and contribute nothing; a parsed document is handed to
`extractActionsFromWorkflow`. -/
def processWorkflowFile (f : WfFile) (repoName : GoStr) (usesRepos : UsageMap) : UsageMap :=
  match f.outcome with
  | FileOutcome.yamlDoc doc => extractActionsFromWorkflow doc repoName usesRepos
  | _ => usesRepos

/-- Whether handling this workflow file emits a `log.Printf` line. -/
def fileLogged (f : WfFile) : Bool :=
  match f.outcome with
  | FileOutcome.yamlDoc _ => false
  | _ => true

/-- Result of listing `.github/workflows` for one repository:
a structured GitHub API error response (`*github.ErrorResponse`, carrying the
HTTP status code, e.g. 404 for not-found), some other error (e.g. a transport
failure), or the directory listing. -/
inductive WfDirResult where
  | errorResponse : Nat → WfDirResult
  | otherError : WfDirResult
  | ok : List WfFile → WfDirResult

/-- One repository as the scanner sees it: its name and the outcome of listing
its workflow directory. -/
structure RepoEnv where
  name : GoStr
  dirResult : WfDirResult

/-- `processRepository` from `main.go`, returning the updated map together
with whether a `log.Printf` line was emitted while handling this repository.
The code's branch `if _, ok := err.(*github.ErrorResponse); ok { return }`
silently skips every structured API error response regardless of status; only
non-`ErrorResponse` errors are logged. -/
def processRepository (re : RepoEnv) (usesRepos : UsageMap) : UsageMap × Bool :=
  match re.dirResult with
  | WfDirResult.errorResponse _ => (usesRepos, false)
  | WfDirResult.otherError => (usesRepos, true)
  | WfDirResult.ok contents =>
    (contents.foldl
      (fun m f => if isWorkflowFile f then processWorkflowFile f re.name m else m)
      usesRepos,
     contents.any (fun f => isWorkflowFile f && fileLogged f))

/-- The per-repository loop of `scanRepositories` starting from a given map
(the limit `maxRepos = 0` disables the cap, so every listed repository is
processed; pagination is the external API). -/
def scanRepositoriesFrom (repos : List RepoEnv) (usesRepos : UsageMap) : UsageMap :=
  repos.foldl (fun m re => (processRepository re m).1) usesRepos

/-- `scanRepositories` from `main.go`: scan all repositories starting from the
empty map. -/
def scanRepositories (repos : List RepoEnv) : UsageMap :=
  scanRepositoriesFrom repos emptyUsage

/-- The usage map `m'` keeps every entry of `m` and never loses a repository
from an entry's set. -/
def UsageLe (m m' : UsageMap) : Prop :=
  ∀ k i, m k = some i → ∃ i', m' k = some i' ∧ ∀ x ∈ i.repos, x ∈ i'.repos

/-- Entry `u` of `m` exists and records repository `r`. -/
def HasUse (m : UsageMap) (u r : GoStr) : Prop :=
  ∃ i, m u = some i ∧ r ∈ i.repos

lemma insertRepo_self_mem (r : GoStr) (rs : List GoStr) : r ∈ insertRepo r rs := by
  unfold insertRepo
  split
  · assumption
  · exact List.mem_append_right _ (List.mem_singleton.mpr rfl)

lemma insertRepo_mem_of_mem {x : GoStr} {rs : List GoStr} (r : GoStr)
    (hx : x ∈ rs) : x ∈ insertRepo r rs := by
  unfold insertRepo
  split
  · exact hx
  · exact List.mem_append_left _ hx

lemma insertRepo_ne_nil (r : GoStr) (rs : List GoStr) : insertRepo r rs ≠ [] := by
  unfold insertRepo
  split
  · intro h
    subst h
    simp at *
  · simp

/-- Case analysis for `addActionUsage`: either the queried key is the inserted
one (fresh or updated entry), or the map is unchanged at that key. -/
lemma addActionUsage_cases (u r : GoStr) (m : UsageMap) (k : GoStr) :
    (k = u ∧ ((m u = none ∧
        addActionUsage u r m k = some { newActionInfo with repos := insertRepo r [] }) ∨
      (∃ i, m u = some i ∧
        addActionUsage u r m k = some { i with repos := insertRepo r i.repos })))
    ∨ (k ≠ u ∧ addActionUsage u r m k = m k) := by
  by_cases hk : k = u
  · left
    refine ⟨hk, ?_⟩
    cases hmu : m u with
    | none => exact Or.inl ⟨rfl, by simp [addActionUsage, hk, hmu]⟩
    | some i => exact Or.inr ⟨i, rfl, by simp [addActionUsage, hk, hmu]⟩
  · right
    exact ⟨hk, by simp [addActionUsage, hk]⟩

lemma usageLe_refl (m : UsageMap) : UsageLe m m :=
  fun k i h => ⟨i, h, fun _ hx => hx⟩

lemma usageLe_trans {m₁ m₂ m₃ : UsageMap} (h₁ : UsageLe m₁ m₂) (h₂ : UsageLe m₂ m₃) :
    UsageLe m₁ m₃ := by
  intro k i h
  obtain ⟨i', hi', hsub⟩ := h₁ k i h
  obtain ⟨i'', hi'', hsub'⟩ := h₂ k i' hi'
  exact ⟨i'', hi'', fun x hx => hsub' x (hsub x hx)⟩

lemma addActionUsage_le (u r : GoStr) (m : UsageMap) : UsageLe m (addActionUsage u r m) := by
  intro k i h
  rcases addActionUsage_cases u r m k with ⟨hk, hc⟩ | ⟨_, heq⟩
  · subst hk
    rcases hc with ⟨hnone, _⟩ | ⟨i₀, hsome, heq⟩
    · rw [h] at hnone
      exact absurd hnone (by simp)
    · rw [h] at hsome
      cases hsome
      exact ⟨_, heq, fun x hx => insertRepo_mem_of_mem r hx⟩
  · exact ⟨i, heq.trans h, fun _ hx => hx⟩

lemma addActionUsage_hasUse (u r : GoStr) (m : UsageMap) :
    HasUse (addActionUsage u r m) u r := by
  rcases addActionUsage_cases u r m u with ⟨_, hc⟩ | ⟨hne, _⟩
  · rcases hc with ⟨_, heq⟩ | ⟨i₀, _, heq⟩
    · exact ⟨_, heq, insertRepo_self_mem r []⟩
    · exact ⟨_, heq, insertRepo_self_mem r i₀.repos⟩
  · exact absurd rfl hne

lemma hasUse_mono {m m' : UsageMap} {u r : GoStr} (hle : UsageLe m m')
    (h : HasUse m u r) : HasUse m' u r := by
  obtain ⟨i, hi, hr⟩ := h
  obtain ⟨i', hi', hsub⟩ := hle u i hi
  exact ⟨i', hi', hsub r hr⟩

lemma processStep_le (r : GoStr) (m : UsageMap) (s : GVal) :
    UsageLe m (processStep r m s) := by
  unfold processStep
  split
  · split
    · exact addActionUsage_le _ _ _
    · exact usageLe_refl _
  · exact usageLe_refl _

lemma foldl_le {α : Type} (f : UsageMap → α → UsageMap)
    (hf : ∀ m a, UsageLe m (f m a)) :
    ∀ (l : List α) (m : UsageMap), UsageLe m (l.foldl f m) := by
  intro l
  induction l with
  | nil => exact fun m => usageLe_refl m
  | cons a l ih =>
    intro m
    exact usageLe_trans (hf m a) (ih (f m a))

lemma processJobSteps_le (job : GVal) (r : GoStr) (m : UsageMap) :
    UsageLe m (processJobSteps job r m) := by
  unfold processJobSteps
  split
  · split
    · exact foldl_le _ (processStep_le r) _ _
    · exact usageLe_refl _
  · exact usageLe_refl _

lemma foldl_hasUse {α : Type} (f : UsageMap → α → UsageMap) (u r : GoStr)
    (hle : ∀ m a, UsageLe m (f m a)) (a : α) :
    ∀ (l : List α), a ∈ l → (∀ m, HasUse (f m a) u r) →
      ∀ m, HasUse (l.foldl f m) u r := by
  intro l
  induction l with
  | nil => intro ha; exact absurd ha (List.not_mem_nil a)
  | cons b l ih =>
    intro ha hest m
    rcases List.mem_cons.mp ha with hab | hal
    · subst hab
      exact hasUse_mono (foldl_le f hle l (f m a)) (hest m)
    · exact ih hal hest (f m b)

lemma processJobSteps_hasUse {jobMap : List (GoStr × GVal)} {steps : List GVal}
    {step : GVal} {stepMap : List (GoStr × GVal)} {u : GoStr} (r : GoStr) (m : UsageMap)
    (hsteps : lookupKey jobMap ("steps".toList) = some (GVal.seq steps))
    (hstep : step ∈ steps)
    (hsm : step = GVal.map stepMap)
    (hu : lookupKey stepMap ("uses".toList) = some (GVal.str u)) :
    HasUse (processJobSteps (GVal.map jobMap) r m) u r := by
  simp only [processJobSteps, hsteps]
  refine foldl_hasUse (processStep r) u r (processStep_le r) step steps hstep ?_ m
  intro m'
  subst hsm
  simp only [processStep, hu]
  exact addActionUsage_hasUse u r m'

/-- An entry-wise predicate holds for every entry of the map. -/
def EntryPred (P : ActionInfo → Prop) (m : UsageMap) : Prop :=
  ∀ k i, m k = some i → P i

lemma foldl_pres {α : Type} (P : UsageMap → Prop) (f : UsageMap → α → UsageMap)
    (hf : ∀ m a, P m → P (f m a)) :
    ∀ (l : List α) (m : UsageMap), P m → P (l.foldl f m) := by
  intro l
  induction l with
  | nil => exact fun m h => h
  | cons a l ih => exact fun m h => ih (f m a) (hf m a h)

/-- Every stage of the scanner preserves an entry-wise predicate that holds
for freshly created entries and is stable under adding a repository. -/
lemma pipeline_entryPred (P : ActionInfo → Prop)
    (hnew : ∀ r, P { newActionInfo with repos := insertRepo r [] })
    (hupd : ∀ r i, P i → P { i with repos := insertRepo r i.repos }) :
    (∀ u r m, EntryPred P m → EntryPred P (addActionUsage u r m))
    ∧ (∀ r m s, EntryPred P m → EntryPred P (processStep r m s))
    ∧ (∀ j r m, EntryPred P m → EntryPred P (processJobSteps j r m))
    ∧ (∀ w r m, EntryPred P m → EntryPred P (extractActionsFromWorkflow w r m))
    ∧ (∀ f r m, EntryPred P m → EntryPred P (processWorkflowFile f r m))
    ∧ (∀ re m, EntryPred P m → EntryPred P (processRepository re m).1)
    ∧ (∀ rs m, EntryPred P m → EntryPred P (scanRepositoriesFrom rs m))
    ∧ (∀ rs, EntryPred P (scanRepositories rs)) := by
  have hadd : ∀ u r m, EntryPred P m → EntryPred P (addActionUsage u r m) := by
    intro u r m hm k i hi
    rcases addActionUsage_cases u r m k with ⟨hk, hc⟩ | ⟨_, heq⟩
    · subst hk
      rcases hc with ⟨_, heq⟩ | ⟨i₀, hsome, heq⟩
      · rw [heq] at hi
        cases hi
        exact hnew r
      · rw [heq] at hi
        cases hi
        exact hupd r i₀ (hm k i₀ hsome)
    · exact hm k i (heq ▸ hi)
  have hstep : ∀ r m s, EntryPred P m → EntryPred P (processStep r m s) := by
    intro r m s hm
    unfold processStep
    split
    · split
      · exact hadd _ _ _ hm
      · exact hm
    · exact hm
  have hjob : ∀ j r m, EntryPred P m → EntryPred P (processJobSteps j r m) := by
    intro j r m hm
    unfold processJobSteps
    split
    · split
      · exact foldl_pres (EntryPred P) _ (fun m s => hstep r m s) _ m hm
      · exact hm
    · exact hm
  have hwf : ∀ w r m, EntryPred P m → EntryPred P (extractActionsFromWorkflow w r m) := by
    intro w r m hm
    unfold extractActionsFromWorkflow
    split
    · exact foldl_pres (EntryPred P) _ (fun m (kv : GoStr × GVal) => hjob kv.2 r m) _ m hm
    · exact hm
  have hfile : ∀ f r m, EntryPred P m → EntryPred P (processWorkflowFile f r m) := by
    intro f r m hm
    unfold processWorkflowFile
    split
    · exact hwf _ r m hm
    · exact hm
  have hrepo : ∀ re m, EntryPred P m → EntryPred P (processRepository re m).1 := by
    intro re m hm
    unfold processRepository
    split
    · exact hm
    · exact hm
    · refine foldl_pres (EntryPred P) _ ?_ _ m hm
      intro m' f hm'
      split
      · exact hfile f re.name m' hm'
      · exact hm'
  have hscan : ∀ rs m, EntryPred P m → EntryPred P (scanRepositoriesFrom rs m) := by
    intro rs m hm
    unfold scanRepositoriesFrom
    exact foldl_pres (EntryPred P) _ (fun m re => hrepo re m) _ m hm
  refine ⟨hadd, hstep, hjob, hwf, hfile, hrepo, hscan, ?_⟩
  intro rs
  exact hscan rs emptyUsage (fun k i hi => by cases hi)

lemma checkPackagesForInfection_repos (reg : List GoStr)
    (j : List (GoStr × GVal)) (i : ActionInfo) :
    (checkPackagesForInfection reg j i).repos = i.repos := by
  unfold checkPackagesForInfection
  split
  · dsimp only
    split <;> rfl
  · rfl

lemma checkPackagesForInfection_usesNpm (reg : List GoStr)
    (j : List (GoStr × GVal)) (i : ActionInfo) :
    (checkPackagesForInfection reg j i).usesNpm = i.usesNpm := by
  unfold checkPackagesForInfection
  split
  · dsimp only
    split <;> rfl
  · rfl

lemma checkPackagesForInfection_analyzed (reg : List GoStr)
    (j : List (GoStr × GVal)) (i : ActionInfo) :
    (checkPackagesForInfection reg j i).analyzed = i.analyzed := by
  unfold checkPackagesForInfection
  split
  · dsimp only
    split <;> rfl
  · rfl

lemma analyzePackageJsonFile_repos (b : Bool) (i : ActionInfo) :
    (analyzePackageJsonFile b i).repos = i.repos := by
  unfold analyzePackageJsonFile
  split <;> rfl

lemma analyzeActionDependencies_repos (reg : List GoStr) (env : DepEnv)
    (i : ActionInfo) : (analyzeActionDependencies reg env i).repos = i.repos := by
  unfold analyzeActionDependencies analyzePackageLockFile
  cases env.lockFetch <;>
    simp [checkPackagesForInfection_repos, analyzePackageJsonFile_repos]

lemma analyzeEntry_repos (reg : List GoStr) (env : GoStr → GoStr → DepEnv)
    (k : GoStr) (i : ActionInfo) : (analyzeEntry reg env k i).repos = i.repos := by
  unfold analyzeEntry
  split
  · rfl
  · dsimp only
    split
    · rfl
    · exact analyzeActionDependencies_repos _ _ _

/-- The spec invariant on one entry: `isInfected` holds exactly when
`infectedPackages` is non-empty. -/
def InfectedInv (i : ActionInfo) : Prop :=
  i.isInfected = true ↔ i.infectedPackages ≠ []

lemma newActionInfo_infectedInv : InfectedInv newActionInfo := by
  simp [InfectedInv, newActionInfo]

lemma checkPackagesForInfection_inv (reg : List GoStr) (j : List (GoStr × GVal))
    (i : ActionInfo) (h : InfectedInv i) :
    InfectedInv (checkPackagesForInfection reg j i) := by
  unfold checkPackagesForInfection
  split
  · dsimp only
    split
    · next hlen =>
      constructor
      · intro _
        exact (List.length_pos.mp hlen)
      · intro _
        rfl
    · exact h
  · exact h

lemma analyzePackageJsonFile_inv (b : Bool) (i : ActionInfo) (h : InfectedInv i) :
    InfectedInv (analyzePackageJsonFile b i) := by
  unfold analyzePackageJsonFile
  split
  · exact h
  · exact h

lemma analyzeActionDependencies_inv (reg : List GoStr) (env : DepEnv)
    (i : ActionInfo) (h : InfectedInv i) :
    InfectedInv (analyzeActionDependencies reg env i) := by
  unfold analyzeActionDependencies analyzePackageLockFile
  cases env.lockFetch with
  | fetchErr => exact analyzePackageJsonFile_inv _ _ h
  | contentErr => exact h
  | parseErr => exact h
  | parsed j => exact checkPackagesForInfection_inv _ _ _ h

lemma analyzeEntry_inv (reg : List GoStr) (env : GoStr → GoStr → DepEnv)
    (k : GoStr) (i : ActionInfo) (h : InfectedInv i) :
    InfectedInv (analyzeEntry reg env k i) := by
  unfold analyzeEntry
  split
  · exact h
  · dsimp only
    split
    · exact h
    · exact analyzeActionDependencies_inv _ _ _ h

lemma analyzeEntry_analyzed_parsed (reg : List GoStr) (env : GoStr → GoStr → DepEnv)
    (k : GoStr) (i : ActionInfo)
    (h1 : (parseActionReference k).1 ≠ []) (h2 : (parseActionReference k).2 ≠ []) :
    (analyzeEntry reg env k i).analyzed = true := by
  unfold analyzeEntry
  split
  · next h => exact h
  · dsimp only
    split
    · next hguard =>
      rcases Bool.or_eq_true_iff.mp hguard with hg | hg
      · exact absurd (of_decide_eq_true hg) h1
      · exact absurd (of_decide_eq_true hg) h2
    · rfl

lemma analyzeEntry_malformed (reg : List GoStr) (env : GoStr → GoStr → DepEnv)
    (k : GoStr) (i : ActionInfo)
    (h : (parseActionReference k).1 = [] ∨ (parseActionReference k).2 = []) :
    analyzeEntry reg env k i = i := by
  unfold analyzeEntry
  split
  · rfl
  · dsimp only
    split
    · rfl
    · next hguard =>
      exfalso
      rcases h with h | h
      · exact hguard (by simp [h])
      · exact hguard (by simp [h])

lemma checkPackagesForInfection_no_packages (reg : List GoStr)
    (j : List (GoStr × GVal)) (i : ActionInfo)
    (h : ∀ pkgs, lookupKey j ("packages".toList) ≠ some (GVal.map pkgs)) :
    checkPackagesForInfection reg j i = i := by
  unfold checkPackagesForInfection
  split
  · next pkgs heq => exact absurd heq (h pkgs)
  · rfl

lemma checkPackageEntry_append (reg : List GoStr) (acc : List GoStr)
    (p : GoStr × GVal) :
    checkPackageEntry reg acc p = acc ++ checkPackageEntry reg [] p := by
  unfold checkPackageEntry
  split
  · simp
  · split
    · split
      · dsimp only
        split
        · simp
        · simp
      · simp
    · simp

lemma foldl_checkPackageEntry (reg : List GoStr) :
    ∀ (l : List (GoStr × GVal)) (acc : List GoStr),
      l.foldl (checkPackageEntry reg) acc = acc ++ l.foldl (checkPackageEntry reg) [] := by
  intro l
  induction l with
  | nil => simp
  | cons p l ih =>
    intro acc
    simp only [List.foldl_cons]
    rw [ih (checkPackageEntry reg acc p), ih (checkPackageEntry reg [] p),
      checkPackageEntry_append, List.append_assoc]

lemma mem_checkPackageEntry_nil (reg : List GoStr) (path : GoStr) (v : GVal)
    (s : GoStr) :
    s ∈ checkPackageEntry reg [] (path, v) ↔
      (path ≠ [] ∧ ∃ meta version, v = GVal.map meta ∧
        lookupKey meta ("version".toList) = some (GVal.str version) ∧
        s = extractPackageName path ++ ("@".toList) ++ version ∧
        isInfectedPackage reg s = true) := by
  by_cases hp : path = []
  · have hred : checkPackageEntry reg [] (path, v) = [] := by
      unfold checkPackageEntry
      rw [if_pos hp]
    rw [hred]
    constructor
    · intro hs
      exact absurd hs (List.not_mem_nil s)
    · rintro ⟨hne, _⟩
      exact absurd hp hne
  · cases v with
    | str t =>
      have hred : checkPackageEntry reg [] (path, GVal.str t) = [] := by
        unfold checkPackageEntry
        rw [if_neg hp]
      rw [hred]
      constructor
      · intro hs
        exact absurd hs (List.not_mem_nil s)
      · rintro ⟨_, meta, version, hm, _⟩
        cases hm
    | seq l =>
      have hred : checkPackageEntry reg [] (path, GVal.seq l) = [] := by
        unfold checkPackageEntry
        rw [if_neg hp]
      rw [hred]
      constructor
      · intro hs
        exact absurd hs (List.not_mem_nil s)
      · rintro ⟨_, meta, version, hm, _⟩
        cases hm
    | other =>
      have hred : checkPackageEntry reg [] (path, GVal.other) = [] := by
        unfold checkPackageEntry
        rw [if_neg hp]
      rw [hred]
      constructor
      · intro hs
        exact absurd hs (List.not_mem_nil s)
      · rintro ⟨_, meta, version, hm, _⟩
        cases hm
    | map meta =>
      have hred : checkPackageEntry reg [] (path, GVal.map meta) =
          (match lookupKey meta ("version".toList) with
           | some (GVal.str version) =>
             if isInfectedPackage reg
                 (extractPackageName path ++ ("@".toList) ++ version) = true then
               [extractPackageName path ++ ("@".toList) ++ version]
             else []
           | _ => ([] : List GoStr)) := by
        unfold checkPackageEntry
        rw [if_neg hp]
        show (match lookupKey meta ("version".toList) with
           | some (GVal.str version) =>
             if isInfectedPackage reg
                 (extractPackageName path ++ ("@".toList) ++ version) = true then
               [] ++ [extractPackageName path ++ ("@".toList) ++ version]
             else ([] : List GoStr)
           | _ => ([] : List GoStr)) = _
        cases lookupKey meta ("version".toList) with
        | none => rfl
        | some v' => cases v' <;> simp
      rw [hred]
      cases hver : lookupKey meta ("version".toList) with
      | none =>
        constructor
        · intro hs
          exact absurd hs (List.not_mem_nil s)
        · rintro ⟨_, meta', version, hm, hv, _⟩
          cases hm
          rw [hver] at hv
          cases hv
      | some v' =>
        cases v' with
        | str version =>
          dsimp only
          by_cases hinf :
              isInfectedPackage reg
                (extractPackageName path ++ ("@".toList) ++ version) = true
          · rw [if_pos hinf]
            constructor
            · intro hs
              have hs' : s = extractPackageName path ++ ("@".toList) ++ version :=
                List.mem_singleton.mp hs
              exact ⟨hp, meta, version, rfl, hver, hs', hs' ▸ hinf⟩
            · rintro ⟨_, meta', version', hm, hv, hs, _⟩
              cases hm
              rw [hver] at hv
              injection hv with hv'
              injection hv' with hv''
              rw [hs, hv'']
              exact List.mem_singleton.mpr rfl
          · rw [if_neg hinf]
            constructor
            · intro hs
              exact absurd hs (List.not_mem_nil s)
            · rintro ⟨_, meta', version', hm, hv, hs, hsi⟩
              cases hm
              rw [hver] at hv
              injection hv with hv'
              injection hv' with hv''
              rw [← hv''] at hs
              exact absurd (hs ▸ hsi) hinf
        | map m' =>
          constructor
          · intro hs
            exact absurd hs (List.not_mem_nil s)
          · rintro ⟨_, meta', version, hm, hv, _⟩
            cases hm
            rw [hver] at hv
            injection hv with hv'
            cases hv'
        | seq l' =>
          constructor
          · intro hs
            exact absurd hs (List.not_mem_nil s)
          · rintro ⟨_, meta', version, hm, hv, _⟩
            cases hm
            rw [hver] at hv
            injection hv with hv'
            cases hv'
        | other =>
          constructor
          · intro hs
            exact absurd hs (List.not_mem_nil s)
          · rintro ⟨_, meta', version, hm, hv, _⟩
            cases hm
            rw [hver] at hv
            injection hv with hv'
            cases hv'

/-- Re-join the parts of a split with the separator. -/
def joinSep (sep : GoStr) : List GoStr → GoStr
  | [] => []
  | [p] => p
  | p :: ps => p ++ sep ++ joinSep sep ps

lemma joinSep_cons (sep p : GoStr) (ps : List GoStr) (h : ps ≠ []) :
    joinSep sep (p :: ps) = p ++ sep ++ joinSep sep ps := by
  cases ps with
  | nil => exact absurd rfl h
  | cons q qs => rfl

lemma joinSep_append_singleton (sep r : GoStr) :
    ∀ (qs : List GoStr), qs ≠ [] →
      joinSep sep (qs ++ [r]) = joinSep sep qs ++ sep ++ r := by
  intro qs
  induction qs with
  | nil => intro h; exact absurd rfl h
  | cons q qs ih =>
    intro _
    cases qs with
    | nil => rfl
    | cons q' qs' =>
      rw [List.cons_append, joinSep_cons _ _ _ (by simp),
        joinSep_cons _ _ _ (by simp), ih (by simp)]
      simp [List.append_assoc]

lemma goSplitAux_ne_nil (sep : GoStr) :
    ∀ (s : GoStr) (k : Nat), goSplitAux sep s k ≠ [] := by
  intro s
  induction s with
  | nil => intro k; simp [goSplitAux]
  | cons c rest ih =>
    intro k
    cases k with
    | succ k => exact ih k
    | zero =>
      unfold goSplitAux
      split
      · simp
      · split
        · simp
        · simp

lemma goSplitAux_skip (sep : GoStr) :
    ∀ (k : Nat) (s : GoStr), goSplitAux sep s k = goSplitAux sep (s.drop k) 0 := by
  intro k
  induction k with
  | zero => intro s; rfl
  | succ k ih =>
    intro s
    cases s with
    | nil => rfl
    | cons c rest => exact ih rest

lemma goSplitAux_cons_zero (sep : GoStr) (c : Char) (rest : GoStr) :
    goSplitAux sep (c :: rest) 0 =
      if sep.isPrefixOf (c :: rest) then
        [] :: goSplitAux sep rest (sep.length - 1)
      else match goSplitAux sep rest 0 with
        | [] => [[c]]
        | p :: ps => (c :: p) :: ps := rfl

lemma goContains_nil_of_ne (sep : GoStr) (hsep : sep ≠ []) :
    goContains ([] : GoStr) sep = false := by
  cases sep with
  | nil => exact absurd rfl hsep
  | cons a as => rfl

/-- Splitting is a partition: re-joining the parts with the separator gives
back the original string. -/
lemma joinSep_goSplit (sep : GoStr) (hsep : sep ≠ []) :
    ∀ (s : GoStr), joinSep sep (goSplit s sep) = s := by
  have main : ∀ (n : Nat) (s : GoStr), s.length ≤ n →
      joinSep sep (goSplit s sep) = s := by
    intro n
    induction n with
    | zero =>
      intro s hs
      have hnil : s = [] := List.eq_nil_of_length_eq_zero (Nat.le_zero.mp hs)
      subst hnil
      rfl
    | succ n ih =>
      intro s hs
      cases s with
      | nil => rfl
      | cons c rest =>
        by_cases hpre : sep.isPrefixOf (c :: rest) = true
        · have hsplit : goSplit (c :: rest) sep =
              [] :: goSplit (rest.drop (sep.length - 1)) sep := by
            show goSplitAux sep (c :: rest) 0 = _
            rw [goSplitAux_cons_zero, if_pos hpre, goSplitAux_skip]
            rfl
          rw [hsplit]
          have hlen : (rest.drop (sep.length - 1)).length ≤ n := by
            have h1 : rest.length ≤ n := by
              simpa using Nat.le_of_succ_le_succ hs
            exact le_trans (by simp) h1
          rw [joinSep_cons _ _ _
              (show goSplit (rest.drop (sep.length - 1)) sep ≠ [] from
                goSplitAux_ne_nil sep _ 0),
            ih _ hlen, List.nil_append]
          obtain ⟨t, ht⟩ := List.isPrefixOf_iff_prefix.mp hpre
          have hdrop : (c :: rest).drop sep.length = t := by
            rw [← ht]
            exact List.drop_left sep t
          have hpos : 1 ≤ sep.length := by
            cases sep with
            | nil => exact absurd rfl hsep
            | cons a as => simp
          have heq2 : rest.drop (sep.length - 1) = (c :: rest).drop sep.length := by
            cases hsl : sep.length with
            | zero => omega
            | succ m => simp
          rw [heq2, hdrop]
          exact ht
        · have hrest := goSplitAux_ne_nil sep rest 0
          cases hsp : goSplitAux sep rest 0 with
          | nil => exact absurd hsp hrest
          | cons p ps =>
            have hsplit : goSplit (c :: rest) sep = (c :: p) :: ps := by
              show goSplitAux sep (c :: rest) 0 = _
              rw [goSplitAux_cons_zero, if_neg hpre, hsp]
            rw [hsplit]
            have hrlen : rest.length ≤ n := by
              simpa using Nat.le_of_succ_le_succ hs
            have hjoin : joinSep sep (p :: ps) = rest := by
              have := ih rest hrlen
              unfold goSplit at this
              rw [hsp] at this
              exact this
            cases ps with
            | nil =>
              simp only [joinSep] at hjoin ⊢
              rw [hjoin]
            | cons q qs =>
              rw [joinSep_cons _ _ _ (by simp)] at hjoin ⊢
              rw [← hjoin]
              simp
  intro s
  exact main s.length s le_rfl

/-- No part produced by splitting contains the separator. -/
lemma goContains_goSplit_parts (sep : GoStr) (hsep : sep ≠ []) :
    ∀ (s : GoStr) (p : GoStr), p ∈ goSplit s sep → goContains p sep = false := by
  have main : ∀ (n : Nat) (s : GoStr), s.length ≤ n →
      ∀ (p : GoStr), p ∈ goSplit s sep → goContains p sep = false := by
    intro n
    induction n with
    | zero =>
      intro s hs p hp
      have hnil : s = [] := List.eq_nil_of_length_eq_zero (Nat.le_zero.mp hs)
      subst hnil
      have : p = [] := by simpa [goSplit, goSplitAux] using hp
      subst this
      exact goContains_nil_of_ne sep hsep
    | succ n ih =>
      intro s hs p hp
      cases s with
      | nil =>
        have : p = [] := by simpa [goSplit, goSplitAux] using hp
        subst this
        exact goContains_nil_of_ne sep hsep
      | cons c rest =>
        by_cases hpre : sep.isPrefixOf (c :: rest) = true
        · have hsplit : goSplit (c :: rest) sep =
              [] :: goSplit (rest.drop (sep.length - 1)) sep := by
            show goSplitAux sep (c :: rest) 0 = _
            rw [goSplitAux_cons_zero, if_pos hpre, goSplitAux_skip]
            rfl
          rw [hsplit] at hp
          rcases List.mem_cons.mp hp with hp0 | hptail
          · subst hp0
            exact goContains_nil_of_ne sep hsep
          · have hlen : (rest.drop (sep.length - 1)).length ≤ n := by
              have h1 : rest.length ≤ n := by
                simpa using Nat.le_of_succ_le_succ hs
              exact le_trans (by simp) h1
            exact ih _ hlen p hptail
        · have hrest := goSplitAux_ne_nil sep rest 0
          cases hsp : goSplitAux sep rest 0 with
          | nil => exact absurd hsp hrest
          | cons q qs =>
            have hsplit : goSplit (c :: rest) sep = (c :: q) :: qs := by
              show goSplitAux sep (c :: rest) 0 = _
              rw [goSplitAux_cons_zero, if_neg hpre, hsp]
            rw [hsplit] at hp
            have hrlen : rest.length ≤ n := by
              simpa using Nat.le_of_succ_le_succ hs
            rcases List.mem_cons.mp hp with hp0 | hptail
            · subst hp0
              have hq : goContains q sep = false := by
                refine ih rest hrlen q ?_
                unfold goSplit
                rw [hsp]
                exact List.mem_cons_self q qs
              have hqpre : sep.isPrefixOf (c :: q) = false := by
                by_contra hx
                have hx' : sep.isPrefixOf (c :: q) = true := by
                  revert hx
                  cases sep.isPrefixOf (c :: q) <;> simp
                have hqp : (c :: q) <+: (c :: rest) := by
                  have hjoin : joinSep sep (q :: qs) = rest := by
                    have := joinSep_goSplit sep hsep rest
                    unfold goSplit at this
                    rw [hsp] at this
                    exact this
                  cases qs with
                  | nil =>
                    simp only [joinSep] at hjoin
                    rw [hjoin]
                  | cons q' qs' =>
                    rw [joinSep_cons _ _ _ (by simp)] at hjoin
                    rw [← hjoin, ← List.cons_append, ← List.cons_append,
                      List.append_assoc]
                    exact List.prefix_append _ _
                have : sep <+: (c :: rest) :=
                  (List.isPrefixOf_iff_prefix.mp hx').trans hqp
                exact hpre (List.isPrefixOf_iff_prefix.mpr this)
              show (sep.isPrefixOf (c :: q) || goContains q sep) = false
              rw [hqpre, hq]
              rfl
            · refine ih rest hrlen p ?_
              unfold goSplit
              rw [hsp]
              exact List.mem_cons_of_mem q hptail
  intro s
  exact main s.length s le_rfl

/-- A string not containing the separator splits into just itself. -/
lemma goSplit_eq_single (sep : GoStr) :
    ∀ (s : GoStr), goContains s sep = false → goSplit s sep = [s] := by
  intro s
  induction s with
  | nil => intro _; rfl
  | cons c rest ih =>
    intro h
    have h' : (sep.isPrefixOf (c :: rest) || goContains rest sep) = false := h
    have h1 : sep.isPrefixOf (c :: rest) = false := by
      cases hx : sep.isPrefixOf (c :: rest)
      · rfl
      · rw [hx] at h'
        simp at h'
    have h2 : goContains rest sep = false := by
      cases hx : goContains rest sep
      · rfl
      · rw [hx] at h'
        simp at h'
    have hr := ih h2
    unfold goSplit at hr ⊢
    rw [goSplitAux_cons_zero, if_neg (by simp [h1]), hr]

/-- A string containing the separator splits into at least two parts. -/
lemma goSplit_length_ge_two (sep : GoStr) (hsep : sep ≠ []) :
    ∀ (s : GoStr), goContains s sep = true → 2 ≤ (goSplit s sep).length := by
  intro s
  induction s with
  | nil =>
    intro h
    rw [goContains_nil_of_ne sep hsep] at h
    cases h
  | cons c rest ih =>
    intro h
    by_cases hpre : sep.isPrefixOf (c :: rest) = true
    · have hne := goSplitAux_ne_nil sep rest (sep.length - 1)
      unfold goSplit
      rw [goSplitAux_cons_zero, if_pos hpre]
      have := List.length_pos.mpr hne
      simp only [List.length_cons]
      omega
    · have h' : (sep.isPrefixOf (c :: rest) || goContains rest sep) = true := h
      have h2 : goContains rest sep = true := by
        cases hx : goContains rest sep
        · rw [hx] at h'
          have h1 : sep.isPrefixOf (c :: rest) = false := by
            cases hy : sep.isPrefixOf (c :: rest)
            · rfl
            · exact absurd hy hpre
          rw [h1] at h'
          cases h'
        · rfl
      have hlen := ih h2
      cases hsp : goSplitAux sep rest 0 with
      | nil => exact absurd hsp (goSplitAux_ne_nil sep rest 0)
      | cons p ps =>
        unfold goSplit
        rw [goSplitAux_cons_zero, if_neg hpre, hsp]
        unfold goSplit at hlen
        rw [hsp] at hlen
        simpa using hlen

lemma mem_foldl_checkPackageEntry (reg : List GoStr) :
    ∀ (l : List (GoStr × GVal)) (s : GoStr),
      s ∈ l.foldl (checkPackageEntry reg) [] ↔
        ∃ p ∈ l, s ∈ checkPackageEntry reg [] p := by
  intro l
  induction l with
  | nil => simp
  | cons p l ih =>
    intro s
    rw [List.foldl_cons, foldl_checkPackageEntry, checkPackageEntry_append]
    simp only [List.nil_append, List.mem_append, ih s, List.mem_cons]
    constructor
    · rintro (hs | ⟨q, hq, hqs⟩)
      · exact ⟨p, Or.inl rfl, hs⟩
      · exact ⟨q, Or.inr hq, hqs⟩
    · rintro ⟨q, hq | hq, hqs⟩
      · exact Or.inl (hq ▸ hqs)
      · exact Or.inr ⟨q, hq, hqs⟩

lemma mem_infected_fold (reg : List GoStr) (packages : List (GoStr × GVal))
    (s : GoStr) :
    s ∈ packages.foldl (checkPackageEntry reg) [] ↔
      ∃ path meta version, (path, GVal.map meta) ∈ packages ∧ path ≠ [] ∧
        lookupKey meta ("version".toList) = some (GVal.str version) ∧
        s = extractPackageName path ++ ("@".toList) ++ version ∧
        isInfectedPackage reg s = true := by
  rw [mem_foldl_checkPackageEntry]
  constructor
  · rintro ⟨⟨path, v⟩, hmem, hs⟩
    obtain ⟨hne, meta, version, hveq, hv, hseq, hsi⟩ :=
      (mem_checkPackageEntry_nil reg path v s).mp hs
    subst hveq
    exact ⟨path, meta, version, hmem, hne, hv, hseq, hsi⟩
  · rintro ⟨path, meta, version, hmem, hne, hv, hseq, hsi⟩
    exact ⟨(path, GVal.map meta), hmem,
      (mem_checkPackageEntry_nil reg path (GVal.map meta) s).mpr
        ⟨hne, meta, version, rfl, hv, hseq, hsi⟩⟩

lemma isInfectedPackage_mem (registry : List GoStr) (s : GoStr) :
    isInfectedPackage registry s = true ↔ s ∈ registry := by
  induction registry with
  | nil => simp [isInfectedPackage]
  | cons p rest ih =>
    unfold isInfectedPackage
    by_cases h : s = p
    · simp [h]
    · simp [h, ih]

/-- C6: the registry membership check is exact string equality of the full
`name@version` string: for every candidate `s` the check succeeds iff `s` is
literally present in the registry; in particular `lodash@4.17.21` does not
match a registry containing only `lodash@4.17.20`. -/
theorem C6_registry_exact_match :
    (∀ (registry : List GoStr) (s : GoStr),
      isInfectedPackage registry s = true ↔ s ∈ registry)
    ∧ isInfectedPackage ["lodash@4.17.20".toList] "lodash@4.17.21".toList = false
    ∧ isInfectedPackage ["lodash@4.17.20".toList] "lodash@4.17.20".toList = true :=
  ⟨isInfectedPackage_mem, by decide, by decide⟩

/-- C8: for an analyzed entry whose action repository has no fetchable
`package-lock.json`: if `package.json` exists the entry ends with
`usesNpm = true`, `isInfected = false` and an empty infected list (no
dependency-level check is performed: the infection fields are untouched);
if neither file exists it ends with `usesNpm = false`, `isInfected = false`. -/
theorem C8_lock_file_absent_fallback (registry : List GoStr) (info : ActionInfo)
    (husesNpm : info.usesNpm = false) (hinf : info.isInfected = false)
    (hpkgs : info.infectedPackages = []) :
    ((analyzeActionDependencies registry ⟨LockFetch.fetchErr, true⟩ info).usesNpm = true
      ∧ (analyzeActionDependencies registry ⟨LockFetch.fetchErr, true⟩ info).isInfected = false
      ∧ (analyzeActionDependencies registry ⟨LockFetch.fetchErr, true⟩ info).infectedPackages = [])
    ∧ ((analyzeActionDependencies registry ⟨LockFetch.fetchErr, false⟩ info).usesNpm = false
      ∧ (analyzeActionDependencies registry ⟨LockFetch.fetchErr, false⟩ info).isInfected = false) := by
  unfold analyzeActionDependencies analyzePackageLockFile analyzePackageJsonFile
  simp [husesNpm, hinf, hpkgs]

theorem C8_lock_file_absent_fallback_witness :
    ((analyzeActionDependencies [] ⟨LockFetch.fetchErr, true⟩ newActionInfo).usesNpm = true
      ∧ (analyzeActionDependencies [] ⟨LockFetch.fetchErr, true⟩ newActionInfo).isInfected = false
      ∧ (analyzeActionDependencies [] ⟨LockFetch.fetchErr, true⟩ newActionInfo).infectedPackages = [])
    ∧ ((analyzeActionDependencies [] ⟨LockFetch.fetchErr, false⟩ newActionInfo).usesNpm = false
      ∧ (analyzeActionDependencies [] ⟨LockFetch.fetchErr, false⟩ newActionInfo).isInfected = false) :=
  C8_lock_file_absent_fallback [] newActionInfo rfl rfl rfl

/-- C10: when `package-lock.json` is fetched but its content fails to decode,
fails to parse as JSON, or parses without a `packages` mapping, the entry
still ends as `{ info with usesNpm := true }` (so with the infection fields
untouched: `isInfected = false` and an empty list for a fresh entry), for
either value of the `package.json` existence flag — the fallback is never
consulted on these paths. -/
theorem C10_lock_decode_parse_failure (registry : List GoStr) (info : ActionInfo)
    (b : Bool) (j : List (GoStr × GVal))
    (hnp : ∀ pkgs, lookupKey j ("packages".toList) ≠ some (GVal.map pkgs)) :
    analyzeActionDependencies registry ⟨LockFetch.contentErr, b⟩ info
        = { info with usesNpm := true }
    ∧ analyzeActionDependencies registry ⟨LockFetch.parseErr, b⟩ info
        = { info with usesNpm := true }
    ∧ analyzeActionDependencies registry ⟨LockFetch.parsed j, b⟩ info
        = { info with usesNpm := true } := by
  refine ⟨rfl, rfl, ?_⟩
  unfold analyzeActionDependencies analyzePackageLockFile
  dsimp only
  exact checkPackagesForInfection_no_packages registry j _ hnp

theorem C10_lock_decode_parse_failure_witness :
    analyzeActionDependencies [] ⟨LockFetch.contentErr, true⟩ newActionInfo
        = { newActionInfo with usesNpm := true }
    ∧ analyzeActionDependencies [] ⟨LockFetch.parseErr, true⟩ newActionInfo
        = { newActionInfo with usesNpm := true }
    ∧ analyzeActionDependencies [] ⟨LockFetch.parsed [], true⟩ newActionInfo
        = { newActionInfo with usesNpm := true } :=
  C10_lock_decode_parse_failure [] newActionInfo true []
    (fun pkgs h => by cases h)

/-- C5 counterexample: the claim says every entry has `analyzed = true` after
the analysis pass, including malformed references; but for the malformed
reference `"malformed"` (no `/`), `analyzeActions` skips the entry before
reaching `info.Analyzed = true`, so the entry still has `analyzed = false`. -/
theorem C5_counterexample :
    ((analyzeActions [] (fun _ _ => ⟨LockFetch.fetchErr, false⟩)
        (addActionUsage ("malformed".toList) ("r".toList) emptyUsage))
        ("malformed".toList)).map ActionInfo.analyzed = some false := by decide

/-- C5 (amended): after the analysis pass, an entry whose reference parses
into a non-empty owner and repository name has `analyzed = true`
(unconditionally, whether or not any fetch succeeded); an entry whose
reference is malformed is skipped entirely and left unchanged — in
particular its `analyzed` flag stays `false`. -/
theorem C5_analyzed_flag (registry : List GoStr) (env : GoStr → GoStr → DepEnv)
    (m : UsageMap) (k : GoStr) (info : ActionInfo) (hm : m k = some info) :
    ((parseActionReference k).1 ≠ [] → (parseActionReference k).2 ≠ [] →
      ∃ i, analyzeActions registry env m k = some i ∧ i.analyzed = true)
    ∧ ((parseActionReference k).1 = [] ∨ (parseActionReference k).2 = [] →
      analyzeActions registry env m k = some info) := by
  constructor
  · intro h1 h2
    refine ⟨analyzeEntry registry env k info, ?_, ?_⟩
    · simp [analyzeActions, hm]
    · exact analyzeEntry_analyzed_parsed registry env k info h1 h2
  · intro h
    simp [analyzeActions, hm, analyzeEntry_malformed registry env k info h]

theorem C5_analyzed_flag_witness :
    ∃ i, analyzeActions [] (fun _ _ => ⟨LockFetch.fetchErr, false⟩)
        (addActionUsage ("a/b@v1".toList) ("r".toList) emptyUsage)
        ("a/b@v1".toList) = some i ∧ i.analyzed = true :=
  (C5_analyzed_flag [] (fun _ _ => ⟨LockFetch.fetchErr, false⟩)
      (addActionUsage ("a/b@v1".toList) ("r".toList) emptyUsage)
      ("a/b@v1".toList) { newActionInfo with repos := ["r".toList] }
      (by decide)).1 (by decide) (by decide)

/-- C4 counterexample: the claim says any listing failure other than
"not found" is logged; but `processRepository` silently skips (no log, no
entries) every structured API error response, e.g. a 403, which is a failure
other than the 404 not-found response. -/
theorem C4_counterexample :
    WfDirResult.errorResponse 403 ≠ WfDirResult.errorResponse 404
    ∧ (processRepository ⟨"r".toList, WfDirResult.errorResponse 403⟩ emptyUsage).2
        = false
    ∧ (processRepository ⟨"r".toList, WfDirResult.errorResponse 403⟩ emptyUsage).1
        = emptyUsage := by
  refine ⟨?_, rfl, rfl⟩
  intro h
  injection h with h'
  omega

/-- C4 (amended): a structured API error response of any HTTP status —
including 404 not-found — is silently skipped with no log output and the
repository contributes zero entries; a non-structured failure (e.g. a
transport error) is logged and the repository is skipped; in both cases the
scan continues with the remaining repositories unaffected. -/
theorem C4_listing_failures (re : RepoEnv) (m : UsageMap) (status : Nat)
    (rest : List RepoEnv) :
    (re.dirResult = WfDirResult.errorResponse status →
      processRepository re m = (m, false))
    ∧ (re.dirResult = WfDirResult.otherError →
      processRepository re m = (m, true))
    ∧ ((re.dirResult = WfDirResult.errorResponse status
          ∨ re.dirResult = WfDirResult.otherError) →
      scanRepositoriesFrom (re :: rest) m = scanRepositoriesFrom rest m) := by
  have herr : re.dirResult = WfDirResult.errorResponse status →
      processRepository re m = (m, false) := by
    intro h
    unfold processRepository
    rw [h]
  have hoth : re.dirResult = WfDirResult.otherError →
      processRepository re m = (m, true) := by
    intro h
    unfold processRepository
    rw [h]
  refine ⟨herr, hoth, ?_⟩
  intro h
  show scanRepositoriesFrom rest (processRepository re m).1 = scanRepositoriesFrom rest m
  rcases h with h | h
  · rw [herr h]
  · rw [hoth h]

theorem C4_listing_failures_witness :
    processRepository ⟨"r".toList, WfDirResult.errorResponse 404⟩ emptyUsage
      = (emptyUsage, false) :=
  (C4_listing_failures ⟨"r".toList, WfDirResult.errorResponse 404⟩ emptyUsage
    404 []).1 rfl

/-- C1: for a parsed workflow document with a `jobs` mapping, every step of
any job's `steps` sequence that has a string `uses` field ends up as a key of
the usage map with the scanning repository in its set; documents without a
`jobs` mapping, jobs without a `steps` sequence, and steps without a string
`uses` field contribute nothing. -/
theorem C1_extract_records_uses (workflow : List (GoStr × GVal))
    (repoName : GoStr) (m : UsageMap) :
    (∀ (jobs : List (GoStr × GVal)) (jk : GoStr) (job : GVal)
       (jobMap : List (GoStr × GVal)) (steps : List GVal) (step : GVal)
       (stepMap : List (GoStr × GVal)) (uses : GoStr),
      lookupKey workflow ("jobs".toList) = some (GVal.map jobs) →
      (jk, job) ∈ jobs →
      job = GVal.map jobMap →
      lookupKey jobMap ("steps".toList) = some (GVal.seq steps) →
      step ∈ steps →
      step = GVal.map stepMap →
      lookupKey stepMap ("uses".toList) = some (GVal.str uses) →
      ∃ i, extractActionsFromWorkflow workflow repoName m uses = some i ∧
        repoName ∈ i.repos)
    ∧ ((∀ jobs, lookupKey workflow ("jobs".toList) ≠ some (GVal.map jobs)) →
      extractActionsFromWorkflow workflow repoName m = m)
    ∧ (∀ (job : GVal),
      (∀ (jobMap : List (GoStr × GVal)) (steps : List GVal),
        ¬(job = GVal.map jobMap ∧
          lookupKey jobMap ("steps".toList) = some (GVal.seq steps))) →
      processJobSteps job repoName m = m)
    ∧ (∀ (step : GVal),
      (∀ (stepMap : List (GoStr × GVal)) (uses : GoStr),
        ¬(step = GVal.map stepMap ∧
          lookupKey stepMap ("uses".toList) = some (GVal.str uses))) →
      processStep repoName m step = m) := by
  refine ⟨?_, ?_, ?_, ?_⟩
  · intro jobs jk job jobMap steps step stepMap uses hjobs hjob hjm hsteps hstep hsm huses
    simp only [extractActionsFromWorkflow, hjobs]
    subst hjm
    exact foldl_hasUse (fun m0 kv => processJobSteps kv.2 repoName m0) uses repoName
      (fun m0 kv => processJobSteps_le kv.2 repoName m0) (jk, GVal.map jobMap) jobs hjob
      (fun m0 => processJobSteps_hasUse repoName m0 hsteps hstep hsm huses) m
  · intro hno
    unfold extractActionsFromWorkflow
    split
    · next jobs heq => exact absurd heq (hno jobs)
    · rfl
  · intro job hno
    unfold processJobSteps
    split
    · next jobMap =>
      split
      · next steps heq => exact absurd ⟨rfl, heq⟩ (hno jobMap steps)
      · rfl
    · rfl
  · intro step hno
    unfold processStep
    split
    · next stepMap =>
      split
      · next uses heq => exact absurd ⟨rfl, heq⟩ (hno stepMap uses)
      · rfl
    · rfl

theorem C1_extract_records_uses_witness :
    ∃ i, extractActionsFromWorkflow
        [("jobs".toList, GVal.map
          [("build".toList, GVal.map
            [("steps".toList, GVal.seq
              [GVal.map [("uses".toList, GVal.str "actor/action@v1".toList)]])])])]
        ("repo1".toList) emptyUsage ("actor/action@v1".toList) = some i ∧
      ("repo1".toList) ∈ i.repos :=
  (C1_extract_records_uses
      [("jobs".toList, GVal.map
        [("build".toList, GVal.map
          [("steps".toList, GVal.seq
            [GVal.map [("uses".toList, GVal.str "actor/action@v1".toList)]])])])]
      ("repo1".toList) emptyUsage).1
    [("build".toList, GVal.map
      [("steps".toList, GVal.seq
        [GVal.map [("uses".toList, GVal.str "actor/action@v1".toList)]])])]
    ("build".toList)
    (GVal.map [("steps".toList, GVal.seq
      [GVal.map [("uses".toList, GVal.str "actor/action@v1".toList)]])])
    [("steps".toList, GVal.seq
      [GVal.map [("uses".toList, GVal.str "actor/action@v1".toList)]])]
    [GVal.map [("uses".toList, GVal.str "actor/action@v1".toList)]]
    (GVal.map [("uses".toList, GVal.str "actor/action@v1".toList)])
    [("uses".toList, GVal.str "actor/action@v1".toList)]
    ("actor/action@v1".toList)
    rfl (List.mem_singleton.mpr rfl) rfl rfl (List.mem_singleton.mpr rfl) rfl rfl

/-- C3: for every usage-map entry, at every point of the pipeline (on entry
creation, after the scan, after the analysis pass), `isInfected` is true iff
`infectedPackages` is non-empty; the reporter only reads the map. -/
theorem C3_infected_iff_nonempty :
    InfectedInv newActionInfo
    ∧ (∀ (u r : GoStr) (m : UsageMap), EntryPred InfectedInv m →
        EntryPred InfectedInv (addActionUsage u r m))
    ∧ (∀ (registry : List GoStr) (env : GoStr → GoStr → DepEnv) (k : GoStr)
        (i : ActionInfo), InfectedInv i → InfectedInv (analyzeEntry registry env k i))
    ∧ (∀ (repos : List RepoEnv), EntryPred InfectedInv (scanRepositories repos))
    ∧ (∀ (registry : List GoStr) (env : GoStr → GoStr → DepEnv)
        (repos : List RepoEnv),
        EntryPred InfectedInv (analyzeActions registry env (scanRepositories repos))) := by
  have hnew : ∀ r : GoStr, InfectedInv { newActionInfo with repos := insertRepo r [] } := by
    intro r
    simp [InfectedInv, newActionInfo]
  have hupd : ∀ (r : GoStr) (i : ActionInfo), InfectedInv i →
      InfectedInv { i with repos := insertRepo r i.repos } := by
    intro r i h
    exact h
  obtain ⟨hadd, _, _, _, _, _, _, hscan⟩ := pipeline_entryPred InfectedInv hnew hupd
  refine ⟨newActionInfo_infectedInv, hadd, analyzeEntry_inv, hscan, ?_⟩
  intro registry env repos k i hi
  unfold analyzeActions at hi
  cases hkk : scanRepositories repos k with
  | none =>
    rw [hkk] at hi
    cases hi
  | some i0 =>
    rw [hkk] at hi
    simp only [Option.map_some'] at hi
    cases hi
    exact analyzeEntry_inv registry env k i0 (hscan repos k i0 hkk)

theorem C3_infected_iff_nonempty_witness :
    InfectedInv (analyzeEntry [] (fun _ _ => ⟨LockFetch.fetchErr, false⟩)
      ("a/b@v1".toList) newActionInfo) :=
  C3_infected_iff_nonempty.2.2.1 [] (fun _ _ => ⟨LockFetch.fetchErr, false⟩)
    ("a/b@v1".toList) newActionInfo newActionInfo_infectedInv

/-- C9: an entry is created only together with the repository that caused its
first sighting (so its repository set is never empty), adding a usage never
removes a repository or deletes an entry, the analysis pass preserves every
entry and its repository set exactly, and every entry of the scanned map —
before and after analysis — has a non-empty repository set. -/
theorem C9_used_by_nonempty :
    (∀ (u r : GoStr) (m : UsageMap),
      ∃ i, addActionUsage u r m u = some i ∧ r ∈ i.repos ∧ i.repos ≠ [])
    ∧ (∀ (u r : GoStr) (m : UsageMap) (k : GoStr) (i : ActionInfo),
        m k = some i → ∃ i', addActionUsage u r m k = some i' ∧
          ∀ x ∈ i.repos, x ∈ i'.repos)
    ∧ (∀ (registry : List GoStr) (env : GoStr → GoStr → DepEnv) (m : UsageMap)
        (k : GoStr) (i : ActionInfo), m k = some i →
          ∃ i', analyzeActions registry env m k = some i' ∧ i'.repos = i.repos)
    ∧ (∀ (repos : List RepoEnv),
        EntryPred (fun i => i.repos ≠ []) (scanRepositories repos))
    ∧ (∀ (registry : List GoStr) (env : GoStr → GoStr → DepEnv)
        (repos : List RepoEnv),
        EntryPred (fun i => i.repos ≠ [])
          (analyzeActions registry env (scanRepositories repos))) := by
  obtain ⟨_, _, _, _, _, _, _, hscan⟩ :=
    pipeline_entryPred (fun i => i.repos ≠ [])
      (fun r => insertRepo_ne_nil r [])
      (fun r i _ => insertRepo_ne_nil r i.repos)
  refine ⟨?_, ?_, ?_, hscan, ?_⟩
  · intro u r m
    rcases addActionUsage_cases u r m u with ⟨_, hc⟩ | ⟨hne, _⟩
    · rcases hc with ⟨_, heq⟩ | ⟨i₀, _, heq⟩
      · exact ⟨_, heq, insertRepo_self_mem r [], insertRepo_ne_nil r []⟩
      · exact ⟨_, heq, insertRepo_self_mem r i₀.repos, insertRepo_ne_nil r i₀.repos⟩
    · exact absurd rfl hne
  · exact fun u r m k i h => addActionUsage_le u r m k i h
  · intro registry env m k i hm
    exact ⟨analyzeEntry registry env k i, by simp [analyzeActions, hm],
      analyzeEntry_repos registry env k i⟩
  · intro registry env repos k i hi
    unfold analyzeActions at hi
    cases hkk : scanRepositories repos k with
    | none =>
      rw [hkk] at hi
      cases hi
    | some i0 =>
      rw [hkk] at hi
      simp only [Option.map_some'] at hi
      cases hi
      rw [analyzeEntry_repos]
      exact hscan repos k i0 hkk

theorem C9_used_by_nonempty_witness :
    ∃ i', analyzeActions [] (fun _ _ => ⟨LockFetch.fetchErr, false⟩)
        (addActionUsage ("a/b@v1".toList) ("r".toList) emptyUsage)
        ("a/b@v1".toList) = some i' ∧ i'.repos = ["r".toList] :=
  C9_used_by_nonempty.2.2.1 [] (fun _ _ => ⟨LockFetch.fetchErr, false⟩)
    (addActionUsage ("a/b@v1".toList) ("r".toList) emptyUsage)
    ("a/b@v1".toList) { newActionInfo with repos := ["r".toList] } (by decide)

/-- C2: for a parsed lock file with a `packages` mapping and a fresh entry,
the infection check accumulates exactly the `name@version` strings of
non-root paths whose metadata has a string `version` and that are members of
the registry, and marks the entry infected exactly when some package matched;
and the concrete scenario: one repository using `actor/action@v1` whose
lock file has `packages["node_modules/left-pad"].version == "1.3.0"` against
a registry containing `left-pad@1.3.0` ends marked infected with package
list `["left-pad@1.3.0"]`. -/
theorem C2_infection_check (registry : List GoStr)
    (lockJSON : List (GoStr × GVal)) (packages : List (GoStr × GVal))
    (info : ActionInfo)
    (hpk : lookupKey lockJSON ("packages".toList) = some (GVal.map packages))
    (hinf : info.isInfected = false) (hpkgs : info.infectedPackages = []) :
    ((∀ s, s ∈ (checkPackagesForInfection registry lockJSON info).infectedPackages ↔
        (∃ path meta version, (path, GVal.map meta) ∈ packages ∧ path ≠ [] ∧
          lookupKey meta ("version".toList) = some (GVal.str version) ∧
          s = extractPackageName path ++ ("@".toList) ++ version ∧
          isInfectedPackage registry s = true))
      ∧ ((checkPackagesForInfection registry lockJSON info).isInfected = true ↔
          (checkPackagesForInfection registry lockJSON info).infectedPackages ≠ []))
    ∧ analyzeActions ["left-pad@1.3.0".toList]
        (fun _ _ =>
          ⟨LockFetch.parsed
            [("packages".toList, GVal.map
              [([], GVal.map [])
              ,("node_modules/left-pad".toList,
                  GVal.map [("version".toList, GVal.str "1.3.0".toList)])])], false⟩)
        (scanRepositories [⟨"repo1".toList, WfDirResult.ok
          [⟨"ci.yml".toList, "file".toList, FileOutcome.yamlDoc
            [("jobs".toList, GVal.map
              [("build".toList, GVal.map
                [("steps".toList, GVal.seq
                  [GVal.map [("uses".toList,
                    GVal.str "actor/action@v1".toList)]])])])]⟩]⟩])
        ("actor/action@v1".toList)
      = some { repos := ["repo1".toList], usesNpm := true, isInfected := true,
               infectedPackages := ["left-pad@1.3.0".toList], analyzed := true } := by
  have hform : checkPackagesForInfection registry lockJSON info =
      (if (packages.foldl (checkPackageEntry registry) []).length > 0 then
        { info with
            isInfected := true
            infectedPackages := packages.foldl (checkPackageEntry registry) [] }
      else info) := by
    unfold checkPackagesForInfection
    rw [hpk]
  refine ⟨?_, by decide⟩
  by_cases hfound : packages.foldl (checkPackageEntry registry) [] = []
  · rw [hform, if_neg (by simp [hfound])]
    constructor
    · intro s
      rw [hpkgs]
      constructor
      · intro hs
        exact absurd hs (List.not_mem_nil s)
      · intro hrhs
        have hsmem : s ∈ packages.foldl (checkPackageEntry registry) [] :=
          (mem_infected_fold registry packages s).mpr hrhs
        rw [hfound] at hsmem
        exact absurd hsmem (List.not_mem_nil s)
    · rw [hinf, hpkgs]
      simp
  · rw [hform, if_pos (by simpa [List.length_pos] using hfound)]
    refine ⟨fun s => mem_infected_fold registry packages s, ?_, ?_⟩
    · intro _
      exact hfound
    · intro _
      rfl

theorem C2_infection_check_witness :
    (checkPackagesForInfection ["left-pad@1.3.0".toList]
        [("packages".toList, GVal.map
          [("node_modules/left-pad".toList,
            GVal.map [("version".toList, GVal.str "1.3.0".toList)])])]
        newActionInfo).isInfected = true ↔
      (checkPackagesForInfection ["left-pad@1.3.0".toList]
        [("packages".toList, GVal.map
          [("node_modules/left-pad".toList,
            GVal.map [("version".toList, GVal.str "1.3.0".toList)])])]
        newActionInfo).infectedPackages ≠ [] :=
  (C2_infection_check ["left-pad@1.3.0".toList]
    [("packages".toList, GVal.map
      [("node_modules/left-pad".toList,
        GVal.map [("version".toList, GVal.str "1.3.0".toList)])])]
    [("node_modules/left-pad".toList,
      GVal.map [("version".toList, GVal.str "1.3.0".toList)])]
    newActionInfo rfl rfl rfl).1.2

/-- C7: package-name extraction strips one leading `node_modules/` segment;
it returns the remainder verbatim when it starts with `@`, contains `/` and
has no further `/node_modules/` segment, and also when there is no further
`/node_modules/` segment at all; when a `/node_modules/` segment remains, the
result is the separator-free suffix after the last `/node_modules/`
separator; and the three concrete examples of the spec hold. -/
theorem C7_extract_package_name :
    extractPackageName ("node_modules/@scope/pkg".toList) = "@scope/pkg".toList
    ∧ extractPackageName ("node_modules/a/node_modules/b".toList) = "b".toList
    ∧ extractPackageName ("node_modules/simple".toList) = "simple".toList
    ∧ (∀ pkgPath : GoStr,
        ("@".toList).isPrefixOf (goTrimPfx pkgPath ("node_modules/".toList)) = true →
        goContains (goTrimPfx pkgPath ("node_modules/".toList)) ("/".toList) = true →
        goContains (goTrimPfx pkgPath ("node_modules/".toList))
          ("/node_modules/".toList) = false →
        extractPackageName pkgPath = goTrimPfx pkgPath ("node_modules/".toList))
    ∧ (∀ pkgPath : GoStr,
        goContains (goTrimPfx pkgPath ("node_modules/".toList))
          ("/node_modules/".toList) = false →
        extractPackageName pkgPath = goTrimPfx pkgPath ("node_modules/".toList))
    ∧ (∀ pkgPath : GoStr,
        goContains (goTrimPfx pkgPath ("node_modules/".toList))
          ("/node_modules/".toList) = true →
        ∃ pre : GoStr,
          goTrimPfx pkgPath ("node_modules/".toList)
            = pre ++ ("/node_modules/".toList) ++ extractPackageName pkgPath
          ∧ goContains (extractPackageName pkgPath)
              ("/node_modules/".toList) = false) := by
  have hsep : ("/node_modules/".toList : GoStr) ≠ [] := by decide
  refine ⟨by decide, by decide, by decide, ?_, ?_, ?_⟩
  · intro pkgPath h1 h2 h3
    unfold extractPackageName
    dsimp only
    rw [h1, h2, h3]
    rfl
  · intro pkgPath h
    unfold extractPackageName
    dsimp only
    by_cases hc : (("@".toList).isPrefixOf (goTrimPfx pkgPath ("node_modules/".toList))
        && goContains (goTrimPfx pkgPath ("node_modules/".toList)) ("/".toList)
        && !goContains (goTrimPfx pkgPath ("node_modules/".toList))
            ("/node_modules/".toList)) = true
    · rw [if_pos hc]
    · rw [if_neg hc, goSplit_eq_single ("/node_modules/".toList) _ h]
      simp
  · intro pkgPath h
    set nm := goTrimPfx pkgPath ("node_modules/".toList) with hnm
    have hlen : 2 ≤ (goSplit nm ("/node_modules/".toList)).length :=
      goSplit_length_ge_two ("/node_modules/".toList) hsep nm h
    rcases (goSplit nm ("/node_modules/".toList)).eq_nil_or_concat' with hnil | ⟨qs, r, hqs⟩
    · rw [hnil] at hlen
      simp at hlen
    · have hqsne : qs ≠ [] := by
        intro hq
        rw [hq] at hqs
        rw [hqs] at hlen
        simp at hlen
      rw [hqs] at hlen
      have hres : extractPackageName pkgPath = r := by
        unfold extractPackageName
        dsimp only
        rw [← hnm]
        have hcond : (("@".toList).isPrefixOf nm && goContains nm ("/".toList)
            && !goContains nm ("/node_modules/".toList)) = false := by
          rw [h]
          simp
        rw [hcond, if_neg (by simp), hqs, if_pos (by omega),
          List.getLastD_eq_getLast?, List.getLast?_concat]
        rfl
      have hjoin : joinSep ("/node_modules/".toList)
          (goSplit nm ("/node_modules/".toList)) = nm :=
        joinSep_goSplit ("/node_modules/".toList) hsep nm
      rw [hqs, joinSep_append_singleton _ _ qs hqsne] at hjoin
      refine ⟨joinSep ("/node_modules/".toList) qs, ?_, ?_⟩
      · rw [hres, ← hjoin]
      · rw [hres]
        refine goContains_goSplit_parts ("/node_modules/".toList) hsep nm r ?_
        rw [hqs]
        exact List.mem_append_right qs (List.mem_singleton.mpr rfl)

theorem C7_extract_package_name_witness :
    extractPackageName ("node_modules/@scope/pkg".toList)
      = goTrimPfx ("node_modules/@scope/pkg".toList) ("node_modules/".toList) :=
  C7_extract_package_name.2.2.2.1 ("node_modules/@scope/pkg".toList)
    (by decide) (by decide) (by decide)
